import Mathlib

/-!
Shallow embedding of the go-metrics-collector metric pipeline.

The definitions below are translated from the repository sources:
`internal/storage/inmemory.go`, `internal/storage/postgres.go`,
`internal/datamanager/datamanager.go`,
`internal/server/httpserver/router/handlers/handlers.go`,
the router middlewares (compress, hash-sum validator, whitelist) and the
agent reporter (`sendRequest` / `sendByHTTP`).

Go `int64` values are modelled as `Int` together with an explicit wrap
to the signed 64-bit range where Go arithmetic can overflow.  Go `float64`
values are modelled as the exactly-represented rational value of the
IEEE-754 double; the rounding performed by `strconv.ParseFloat` and by
`encoding/json` number decoding is modelled explicitly (`roundF64`).
-/

namespace MetricsCollector

/-! ## Go int64 model -/

def int64Min : Int := -(2 ^ 63)

def int64Max : Int := 2 ^ 63 - 1

/-- Predicate that `v` fits in a Go `int64`. -/
def Int64Range (v : Int) : Prop := int64Min ≤ v ∧ v ≤ int64Max

instance : DecidablePred Int64Range := fun v =>
  inferInstanceAs (Decidable (int64Min ≤ v ∧ v ≤ int64Max))

/-- Wrap an integer into the signed 64-bit range, as Go two's-complement
`int64` addition does on overflow. -/
def int64Wrap (v : Int) : Int := (v + 2 ^ 63) % 2 ^ 64 - 2 ^ 63

/-- Go `int64` addition (wraps on overflow). -/
def int64Add (a b : Int) : Int := int64Wrap (a + b)

theorem int64Wrap_eq_of_range {v : Int} (h : Int64Range v) : int64Wrap v = v := by
  obtain ⟨h1, h2⟩ := h
  unfold int64Wrap
  unfold int64Min at h1
  unfold int64Max at h2
  omega

theorem int64Wrap_add_left (a b : Int) :
    int64Wrap (int64Wrap a + b) = int64Wrap (a + b) := by
  unfold int64Wrap
  omega

/-! ## Metric model (`internal/storage/inmemory.go`) -/

/-- Embedding of `metrics.MetricType` restricted to the two kinds the stores accept. -/
inductive MetricType where
  | counter
  | gauge
deriving DecidableEq, Repr

/-- The dynamic type of `storage.Metric.Value`: `CounterValue` (int64) or
`GaugeValue` (float64). -/
inductive MetricVal where
  | counterV (v : Int)
  | gaugeV (v : ℚ)
deriving DecidableEq, Repr

/-- Embedding of `storage.Metric`: a value together with its type tag. -/
structure Metric where
  type : MetricType
  value : MetricVal
deriving DecidableEq, Repr

/-- Go `map[string]storage.Metric`, modelled as an association list. -/
abbrev MMap := List (String × Metric)

/-- Go map lookup `s.data[name]`. -/
def mapGet (s : MMap) (name : String) : Option Metric :=
  match s with
  | [] => none
  | (k, m) :: rest => if k = name then some m else mapGet rest name

/-- Go map assignment `s.data[name] = m` (replace the binding or add it). -/
def mapSet (s : MMap) (name : String) (m : Metric) : MMap :=
  match s with
  | [] => [(name, m)]
  | (k, m') :: rest =>
      if k = name then (k, m) :: rest else (k, m') :: mapSet rest name m

theorem mapGet_mapSet_self (s : MMap) (name : String) (m : Metric) :
    mapGet (mapSet s name m) name = some m := by
  induction s with
  | nil => simp [mapSet, mapGet]
  | cons hd tl ih =>
      obtain ⟨k, m'⟩ := hd
      by_cases hk : k = name
      · simp [mapSet, mapGet, hk]
      · simp [mapSet, mapGet, hk, ih]

theorem mapGet_mapSet_ne (s : MMap) (name other : String) (m : Metric)
    (h : other ≠ name) : mapGet (mapSet s name m) other = mapGet s other := by
  have hno : name ≠ other := fun hh => h hh.symm
  induction s with
  | nil => simp [mapSet, mapGet, hno]
  | cons hd tl ih =>
      obtain ⟨k, m'⟩ := hd
      by_cases hk : k = name
      · subst hk
        have hko : k ≠ other := fun hh => h hh.symm
        simp [mapSet, mapGet, hko]
      · simp [mapSet, mapGet, hk, ih]

/-! ## Storage errors (`internal/storage/storage.go`, `postgres.go`) -/

inductive StorageErr where
  | metricNotFound
  | metricIsNotCounter
  | metricIsNotGauge
  | invalidValueType (name : String)
  | unknownMetricType (t : String)
  | missingField (name : String)
deriving DecidableEq, Repr

/-! ## In-memory store operations (`MemStorage`, inmemory.go)

Setters mirror the Go methods: they either return an error having mutated
nothing, or mutate the map and return no error.  The pair
`(error?, resulting map)` captures both.
-/

/-- Embedding of `MemStorage.GetCounter`. -/
def getCounter (s : MMap) (name : String) : Except StorageErr Int :=
  match mapGet s name with
  | some metric =>
      match metric.value with
      | .counterV v => .ok v
      | _ => .error .metricIsNotCounter
  | none => .error .metricNotFound

/-- Embedding of `MemStorage.SetCounter`: read-modify-write with Go int64 addition;
fails (leaving the map untouched) when the existing value is not a
`CounterValue`. -/
def setCounter (s : MMap) (name : String) (value : Int) :
    Option StorageErr × MMap :=
  match mapGet s name with
  | some metric =>
      match metric.value with
      | .counterV v =>
          (none, mapSet s name ⟨.counter, .counterV (int64Add v value)⟩)
      | _ => (some .metricIsNotCounter, s)
  | none => (none, mapSet s name ⟨.counter, .counterV value⟩)

/-- Embedding of `MemStorage.GetGauge`. -/
def getGauge (s : MMap) (name : String) : Except StorageErr ℚ :=
  match mapGet s name with
  | some metric =>
      match metric.value with
      | .gaugeV v => .ok v
      | _ => .error .metricIsNotGauge
  | none => .error .metricNotFound

/-- Embedding of `MemStorage.SetGauge`: overwrites, but fails first (leaving the map
untouched) when an existing value is not a `GaugeValue`. -/
def setGauge (s : MMap) (name : String) (value : ℚ) :
    Option StorageErr × MMap :=
  match mapGet s name with
  | some metric =>
      match metric.value with
      | .gaugeV _ => (none, mapSet s name ⟨.gauge, .gaugeV value⟩)
      | _ => (some .metricIsNotGauge, s)
  | none => (none, mapSet s name ⟨.gauge, .gaugeV value⟩)

/-- A sequence of `SetCounter(name, dᵢ)` calls, applied left to right,
stopping at the first error (each Go call site checks the error). -/
def setCounterSeq (s : MMap) (name : String) : List Int → Option StorageErr × MMap
  | [] => (none, s)
  | d :: ds =>
      match setCounter s name d with
      | (none, s') => setCounterSeq s' name ds
      | (some e, s') => (some e, s')

theorem int64Wrap_range (v : Int) : Int64Range (int64Wrap v) := by
  unfold Int64Range int64Wrap int64Min int64Max
  constructor <;> omega

/-- After any sequence of `SetCounter` calls on an id that currently holds a
`CounterValue`, the stored value is the (int64-wrapped) sum of the old value
and all deltas, and no call errors. -/
theorem setCounterSeq_counter (name : String) (ds : List Int) :
    ∀ (s : MMap) (t : MetricType) (old : Int),
      mapGet s name = some ⟨t, .counterV old⟩ → Int64Range old →
      ∃ s' t', setCounterSeq s name ds = (none, s') ∧
        mapGet s' name = some ⟨t', .counterV (int64Wrap (old + ds.sum))⟩ := by
  induction ds with
  | nil =>
      intro s t old hget hrange
      refine ⟨s, t, rfl, ?_⟩
      simpa [int64Wrap_eq_of_range hrange] using hget
  | cons d ds ih =>
      intro s t old hget hrange
      have hstep : setCounter s name d =
          (none, mapSet s name ⟨.counter, .counterV (int64Add old d)⟩) := by
        simp [setCounter, hget]
      have hget' : mapGet (mapSet s name ⟨.counter, .counterV (int64Add old d)⟩) name
          = some ⟨.counter, .counterV (int64Add old d)⟩ := mapGet_mapSet_self ..
      obtain ⟨s', t', hseq, hget''⟩ :=
        ih (mapSet s name ⟨.counter, .counterV (int64Add old d)⟩) .counter
          (int64Add old d) hget' (int64Wrap_range _)
      refine ⟨s', t', ?_, ?_⟩
      · simp [setCounterSeq, hstep, hseq]
      · rw [hget'']
        have : int64Wrap (int64Add old d + ds.sum) = int64Wrap (old + (d :: ds).sum) := by
          unfold int64Add
          rw [int64Wrap_add_left]
          congr 1
          simp [List.sum_cons]
          ring
        rw [this]

/-! ## Relational store (`internal/storage/postgres.go`)

Two tables keyed by name: `metric_counters(name, value int64)` and
`metric_gauges(name, value float64)`.  Mutations are upserts; the counter
upsert adds to the existing value, the gauge upsert overwrites.  There is no
cross-table kind check.
-/

/-- Association-list lookup (a table row by primary key). -/
def alGet {α : Type} (l : List (String × α)) (k : String) : Option α :=
  match l with
  | [] => none
  | (k', v) :: rest => if k' = k then some v else alGet rest k

/-- Upsert a row: replace the binding for `k` or append it. -/
def alSet {α : Type} (l : List (String × α)) (k : String) (v : α) :
    List (String × α) :=
  match l with
  | [] => [(k, v)]
  | (k', v') :: rest =>
      if k' = k then (k', v) :: rest else (k', v') :: alSet rest k v

theorem alGet_alSet_self {α : Type} (l : List (String × α)) (k : String) (v : α) :
    alGet (alSet l k v) k = some v := by
  induction l with
  | nil => simp [alSet, alGet]
  | cons hd tl ih =>
      obtain ⟨k', v'⟩ := hd
      by_cases hk : k' = k
      · simp [alSet, alGet, hk]
      · simp [alSet, alGet, hk, ih]

/-- State of the relational backend: the two tables. -/
structure PgState where
  counters : List (String × Int)
  gauges : List (String × ℚ)
deriving DecidableEq, Repr

inductive PgErr where
  | notFound
  | bigintOutOfRange
  | unknownMetricType (t : String)
  | missingField (name : String)
deriving DecidableEq, Repr

/-- Embedding of `PostgresStorage.GetCounter`: `SELECT value FROM metric_counters WHERE name = $1`. -/
def pgGetCounter (s : PgState) (name : String) : Except PgErr Int :=
  match alGet s.counters name with
  | some v => .ok v
  | none => .error .notFound

/-- Embedding of `PostgresStorage.GetGauge`. -/
def pgGetGauge (s : PgState) (name : String) : Except PgErr ℚ :=
  match alGet s.gauges name with
  | some v => .ok v
  | none => .error .notFound

/-- Embedding of `PostgresStorage.SetCounter`: upsert into `metric_counters`, adding to the
existing value on conflict.  A PostgreSQL `bigint` addition that leaves the
int64 range raises an error instead of wrapping. -/
def pgSetCounter (s : PgState) (name : String) (value : Int) :
    Option PgErr × PgState :=
  match alGet s.counters name with
  | some old =>
      if Int64Range (old + value) then
        (none, { s with counters := alSet s.counters name (old + value) })
      else
        (some .bigintOutOfRange, s)
  | none => (none, { s with counters := alSet s.counters name value })

/-- Embedding of `PostgresStorage.SetGauge`: upsert into `metric_gauges`, overwriting on
conflict.  It never consults `metric_counters`. -/
def pgSetGauge (s : PgState) (name : String) (value : ℚ) :
    Option PgErr × PgState :=
  (none, { s with gauges := alSet s.gauges name value })

/-- Claim C2 counterexample: On the relational backend, a gauge write to an id
currently stored as a counter does **not** fail with a kind-mismatch error:
it succeeds and inserts a gauge row, so the claim "this holds for every
backend" is false. -/
theorem c2_pg_no_kind_mismatch :
    (pgSetGauge ⟨[("x", 5)], []⟩ "x" (3 / 2)).1 = none ∧
    pgGetGauge (pgSetGauge ⟨[("x", 5)], []⟩ "x" (3 / 2)).2 "x" = .ok (3 / 2) := by
  constructor
  · rfl
  · rfl

/-- Claim C2, amended: On the in-memory backend a cross-kind write fails with
the kind-mismatch error and leaves the store unchanged, with the previous
value still returned by the matching read.  On the relational backend such a
write succeeds (the tables are separate), but the previously stored value of
the original kind is likewise still returned by the matching read. -/
theorem c2_kind_mismatch_amended :
    (∀ (s : MMap) (name : String) (t : MetricType) (old : Int) (v : ℚ),
      mapGet s name = some ⟨t, .counterV old⟩ →
      setGauge s name v = (some .metricIsNotGauge, s) ∧
      getCounter s name = .ok old) ∧
    (∀ (s : MMap) (name : String) (t : MetricType) (old : ℚ) (d : Int),
      mapGet s name = some ⟨t, .gaugeV old⟩ →
      setCounter s name d = (some .metricIsNotCounter, s) ∧
      getGauge s name = .ok old) ∧
    (∀ (s : PgState) (name : String) (old : Int) (v : ℚ),
      alGet s.counters name = some old →
      (pgSetGauge s name v).1 = none ∧
      pgGetCounter (pgSetGauge s name v).2 name = .ok old) ∧
    (∀ (s : PgState) (name : String) (old : ℚ) (d : Int),
      alGet s.gauges name = some old → alGet s.counters name = none →
      (pgSetCounter s name d).1 = none ∧
      pgGetGauge (pgSetCounter s name d).2 name = .ok old) := by
  refine ⟨?_, ?_, ?_, ?_⟩
  · intro s name t old v hget
    exact ⟨by simp [setGauge, hget], by simp [getCounter, hget]⟩
  · intro s name t old d hget
    exact ⟨by simp [setCounter, hget], by simp [getGauge, hget]⟩
  · intro s name old v hget
    refine ⟨rfl, ?_⟩
    simp [pgGetCounter, pgSetGauge, hget]
  · intro s name old d hgauge hcounter
    refine ⟨?_, ?_⟩
    · simp [pgSetCounter, hcounter]
    · simp [pgGetGauge, pgSetCounter, hcounter, hgauge]

/-- Witness for the amended C2 at concrete inputs. -/
theorem c2_kind_mismatch_amended_witness :
    (setGauge [("x", ⟨.counter, .counterV 5⟩)] "x" 2 =
      (some .metricIsNotGauge, [("x", ⟨.counter, .counterV 5⟩)]) ∧
      getCounter [("x", ⟨.counter, .counterV 5⟩)] "x" = .ok 5) ∧
    (setCounter [("y", ⟨.gauge, .gaugeV 7⟩)] "y" 1 =
      (some .metricIsNotCounter, [("y", ⟨.gauge, .gaugeV 7⟩)]) ∧
      getGauge [("y", ⟨.gauge, .gaugeV 7⟩)] "y" = .ok 7) ∧
    ((pgSetGauge ⟨[("x", 5)], []⟩ "x" 2).1 = none ∧
      pgGetCounter (pgSetGauge ⟨[("x", 5)], []⟩ "x" 2).2 "x" = .ok 5) ∧
    ((pgSetCounter ⟨[], [("y", 7)]⟩ "y" 1).1 = none ∧
      pgGetGauge (pgSetCounter ⟨[], [("y", 7)]⟩ "y" 1).2 "y" = .ok 7) :=
  ⟨c2_kind_mismatch_amended.1 [("x", ⟨.counter, .counterV 5⟩)] "x" .counter 5 2 rfl,
   c2_kind_mismatch_amended.2.1 [("y", ⟨.gauge, .gaugeV 7⟩)] "y" .gauge 7 1 rfl,
   c2_kind_mismatch_amended.2.2.1 ⟨[("x", 5)], []⟩ "x" 5 2 rfl,
   c2_kind_mismatch_amended.2.2.2 ⟨[], [("y", 7)]⟩ "y" 7 1 rfl rfl⟩

/-- A sequence of `PostgresStorage.SetCounter(name, dᵢ)` calls, applied
left to right, stopping at the first error. -/
def pgSetCounterSeq (s : PgState) (name : String) : List Int → Option PgErr × PgState
  | [] => (none, s)
  | d :: ds =>
      match pgSetCounter s name d with
      | (none, s') => pgSetCounterSeq s' name ds
      | (some e, s') => (some e, s')

/-- After a sequence of relational `SetCounter` calls on a row holding
`old`, the row holds `old` plus the sum of the deltas, provided every
intermediate total stays in the int64 range (PostgreSQL `bigint` raises an
error on overflow instead of wrapping). -/
theorem pgSetCounterSeq_from (name : String) (ds : List Int) :
    ∀ (s : PgState) (old : Int),
      alGet s.counters name = some old →
      (∀ n, n ≤ ds.length → Int64Range (old + (ds.take n).sum)) →
      ∃ s', pgSetCounterSeq s name ds = (none, s') ∧
        pgGetCounter s' name = .ok (old + ds.sum) := by
  induction ds with
  | nil =>
      intro s old hget _
      refine ⟨s, rfl, ?_⟩
      rw [pgGetCounter, hget]
      simp
  | cons d ds ih =>
      intro s old hget hrange
      have hod : Int64Range (old + d) := by
        have h1 := hrange 1 (by simp)
        simpa using h1
      have hstep : pgSetCounter s name d =
          (none, { s with counters := alSet s.counters name (old + d) }) := by
        unfold pgSetCounter
        rw [hget]
        show (if Int64Range (old + d) then _ else _) = _
        rw [if_pos hod]
      have hget' : alGet (alSet s.counters name (old + d)) name = some (old + d) :=
        alGet_alSet_self ..
      have hrange' : ∀ n, n ≤ ds.length → Int64Range (old + d + (ds.take n).sum) := by
        intro n hn
        have h2 := hrange (n + 1) (by simpa using hn)
        rw [List.take_succ_cons, List.sum_cons] at h2
        rw [show old + d + (ds.take n).sum = old + (d + (ds.take n).sum) from by ring]
        exact h2
      obtain ⟨s', hseq, hgetc⟩ :=
        ih { s with counters := alSet s.counters name (old + d) } (old + d) hget' hrange'
      refine ⟨s', ?_, ?_⟩
      · simp [pgSetCounterSeq, hstep, hseq]
      · rw [hgetc, show old + d + ds.sum = old + (d :: ds).sum from by
          rw [List.sum_cons]; ring]

/-- Claim C1: On both backends, a sequence of `SetCounter(id, dᵢ)` writes
starting from a store where `id` is absent leaves `GetCounter(id)` equal to
the sum of the deltas; a single write on an absent id stores `d` (old = 0),
and a single write on an id holding counter value `old` yields `old + d`.
In-memory, Go int64 addition wraps, so the stored value is the wrapped sum
(exactly the mathematical sum whenever it fits in an int64); relationally,
PostgreSQL `bigint` addition errors on overflow, so the exact sum is
reached whenever every intermediate total fits. -/
theorem c1_setCounter_accumulates :
    (∀ (s : MMap) (name : String) (ds : List Int),
      mapGet s name = none → ds ≠ [] → (∀ d ∈ ds, Int64Range d) →
      ∃ s', setCounterSeq s name ds = (none, s') ∧
        getCounter s' name = .ok (int64Wrap ds.sum) ∧
        (Int64Range ds.sum → getCounter s' name = .ok ds.sum)) ∧
    (∀ (s : MMap) (name : String) (d : Int),
      mapGet s name = none →
      (setCounter s name d).1 = none ∧
      getCounter (setCounter s name d).2 name = .ok d) ∧
    (∀ (s : MMap) (name : String) (t : MetricType) (old d : Int),
      mapGet s name = some ⟨t, .counterV old⟩ →
      Int64Range old → Int64Range (old + d) →
      (setCounter s name d).1 = none ∧
      getCounter (setCounter s name d).2 name = .ok (old + d)) ∧
    (∀ (s : PgState) (name : String) (ds : List Int),
      alGet s.counters name = none → ds ≠ [] →
      (∀ n, n ≤ ds.length → Int64Range ((ds.take n).sum)) →
      ∃ s', pgSetCounterSeq s name ds = (none, s') ∧
        pgGetCounter s' name = .ok ds.sum) ∧
    (∀ (s : PgState) (name : String) (d : Int),
      alGet s.counters name = none →
      (pgSetCounter s name d).1 = none ∧
      pgGetCounter (pgSetCounter s name d).2 name = .ok d) ∧
    (∀ (s : PgState) (name : String) (old d : Int),
      alGet s.counters name = some old → Int64Range (old + d) →
      (pgSetCounter s name d).1 = none ∧
      pgGetCounter (pgSetCounter s name d).2 name = .ok (old + d)) := by
  refine ⟨?_, ?_, ?_, ?_, ?_, ?_⟩
  · intro s name ds habsent hne hds
    obtain ⟨d, ds', rfl⟩ := List.exists_cons_of_ne_nil hne
    have hstep : setCounter s name d = (none, mapSet s name ⟨.counter, .counterV d⟩) := by
      simp [setCounter, habsent]
    have hget' : mapGet (mapSet s name ⟨.counter, .counterV d⟩) name
        = some ⟨.counter, .counterV d⟩ := mapGet_mapSet_self ..
    have hdrange : Int64Range d := hds d (by simp)
    obtain ⟨s', t', hseq, hget''⟩ :=
      setCounterSeq_counter name ds' (mapSet s name ⟨.counter, .counterV d⟩)
        .counter d hget' hdrange
    refine ⟨s', ?_, ?_, ?_⟩
    · simp [setCounterSeq, hstep, hseq]
    · have hsum : d + ds'.sum = (d :: ds').sum := by simp
      rw [getCounter, hget'', hsum]
    · intro hrange
      have hsum : d + ds'.sum = (d :: ds').sum := by simp
      rw [getCounter, hget'', hsum, int64Wrap_eq_of_range hrange]
  · intro s name d habsent
    have hstep : setCounter s name d = (none, mapSet s name ⟨.counter, .counterV d⟩) := by
      simp [setCounter, habsent]
    rw [hstep]
    exact ⟨rfl, by rw [getCounter, mapGet_mapSet_self]⟩
  · intro s name t old d hget hold hsum
    have hstep : setCounter s name d =
        (none, mapSet s name ⟨.counter, .counterV (int64Add old d)⟩) := by
      simp [setCounter, hget]
    rw [hstep]
    refine ⟨rfl, ?_⟩
    rw [getCounter, mapGet_mapSet_self]
    rw [show int64Add old d = old + d from int64Wrap_eq_of_range hsum]
  · intro s name ds habsent hne hrange
    obtain ⟨d, rest, rfl⟩ := List.exists_cons_of_ne_nil hne
    have hstep : pgSetCounter s name d =
        (none, { s with counters := alSet s.counters name d }) := by
      unfold pgSetCounter
      rw [habsent]
    have hget' : alGet (alSet s.counters name d) name = some d := alGet_alSet_self ..
    have hrange' : ∀ n, n ≤ rest.length → Int64Range (d + (rest.take n).sum) := by
      intro n hn
      have h2 := hrange (n + 1) (by simpa using hn)
      rw [List.take_succ_cons, List.sum_cons] at h2
      exact h2
    obtain ⟨s', hseq, hgetc⟩ :=
      pgSetCounterSeq_from name rest { s with counters := alSet s.counters name d }
        d hget' hrange'
    refine ⟨s', ?_, ?_⟩
    · simp [pgSetCounterSeq, hstep, hseq]
    · rw [hgetc, show d + rest.sum = (d :: rest).sum from by rw [List.sum_cons]]
  · intro s name d habsent
    have hstep : pgSetCounter s name d =
        (none, { s with counters := alSet s.counters name d }) := by
      unfold pgSetCounter
      rw [habsent]
    rw [hstep]
    refine ⟨rfl, ?_⟩
    rw [pgGetCounter, alGet_alSet_self]
  · intro s name old d hget hsum
    have hstep : pgSetCounter s name d =
        (none, { s with counters := alSet s.counters name (old + d) }) := by
      unfold pgSetCounter
      rw [hget]
      show (if Int64Range (old + d) then _ else _) = _
      rw [if_pos hsum]
    rw [hstep]
    refine ⟨rfl, ?_⟩
    rw [pgGetCounter, alGet_alSet_self]

/-- Witness for C1 at concrete inputs, on both backends: writing deltas
2, 3, 5 to an absent id yields counter value 10; a single write of 7 on an
absent id yields 7; a write of 4 on an id holding 6 yields 10. -/
theorem c1_setCounter_accumulates_witness :
    (∃ s', setCounterSeq [] "hits" [2, 3, 5] = (none, s') ∧
      getCounter s' "hits" = .ok (int64Wrap ([2, 3, 5] : List Int).sum) ∧
      (Int64Range ([2, 3, 5] : List Int).sum →
        getCounter s' "hits" = .ok ([2, 3, 5] : List Int).sum)) ∧
    ((setCounter [] "hits" 7).1 = none ∧
      getCounter (setCounter [] "hits" 7).2 "hits" = .ok 7) ∧
    ((setCounter [("hits", ⟨.counter, .counterV 6⟩)] "hits" 4).1 = none ∧
      getCounter (setCounter [("hits", ⟨.counter, .counterV 6⟩)] "hits" 4).2 "hits"
        = .ok (6 + 4)) ∧
    (∃ s', pgSetCounterSeq ⟨[], []⟩ "hits" [2, 3, 5] = (none, s') ∧
      pgGetCounter s' "hits" = .ok ([2, 3, 5] : List Int).sum) ∧
    ((pgSetCounter ⟨[], []⟩ "hits" 7).1 = none ∧
      pgGetCounter (pgSetCounter ⟨[], []⟩ "hits" 7).2 "hits" = .ok 7) ∧
    ((pgSetCounter ⟨[("hits", 6)], []⟩ "hits" 4).1 = none ∧
      pgGetCounter (pgSetCounter ⟨[("hits", 6)], []⟩ "hits" 4).2 "hits"
        = .ok (6 + 4)) := by
  refine ⟨?_, ?_, ?_, ?_, ?_, ?_⟩
  · exact c1_setCounter_accumulates.1 [] "hits" [2, 3, 5] rfl (by decide)
      (by intro d hd; fin_cases hd <;> decide)
  · exact c1_setCounter_accumulates.2.1 [] "hits" 7 rfl
  · exact c1_setCounter_accumulates.2.2.1 [("hits", ⟨.counter, .counterV 6⟩)] "hits"
      .counter 6 4 (by decide) (by decide) (by decide)
  · exact c1_setCounter_accumulates.2.2.2.1 ⟨[], []⟩ "hits" [2, 3, 5] rfl (by decide)
      (by decide)
  · exact c1_setCounter_accumulates.2.2.2.2.1 ⟨[], []⟩ "hits" 7 rfl
  · exact c1_setCounter_accumulates.2.2.2.2.2 ⟨[("hits", 6)], []⟩ "hits" 6 4 rfl
      (by decide)

/-! ## Batch write on the relational backend (`PostgresStorage.SetMetrics`)

The Go method opens a transaction, executes one upsert per entry, and
commits only if every entry succeeded; `defer tx.Rollback()` discards all
buffered writes otherwise (including when an entry panics on a nil
`Delta`/`Value`).  The transaction is modelled as a state threaded through
`Except`; the committed state replaces the store only on success.
-/

/-- Embedding of `models.Metrics`: the wire envelope. -/
structure WireMetric where
  id : String
  mtype : String
  delta : Option Int
  value : Option ℚ
deriving DecidableEq, Repr

/-- One loop iteration of `SetMetrics` inside the transaction. -/
def txApply (tx : PgState) (m : WireMetric) : Except PgErr PgState :=
  match m.mtype with
  | "counter" =>
      match m.delta with
      | some d =>
          match pgSetCounter tx m.id d with
          | (none, tx') => .ok tx'
          | (some e, _) => .error e
      | none => .error (.missingField m.id)
  | "gauge" =>
      match m.value with
      | some v => .ok (pgSetGauge tx m.id v).2
      | none => .error (.missingField m.id)
  | t => .error (.unknownMetricType t)

/-- Embedding of `PostgresStorage.SetMetrics`: run the entries in one transaction;
commit on success, roll back (returning the untouched store) on any error. -/
def pgSetMetrics (s : PgState) (ms : List WireMetric) : Option PgErr × PgState :=
  match ms.foldlM txApply s with
  | .ok s' => (none, s')
  | .error e => (some e, s)

/-- Claim C4: `SetMetrics` on the relational backend is atomic: whenever any
entry of the batch fails, the resulting store is exactly the original one,
so no entry of the batch is visible to any subsequent counter or gauge
read. -/
theorem c4_pg_batch_atomic (s : PgState) (ms : List WireMetric) (e : PgErr)
    (h : (pgSetMetrics s ms).1 = some e) :
    (pgSetMetrics s ms).2 = s ∧
    (∀ name, pgGetCounter (pgSetMetrics s ms).2 name = pgGetCounter s name) ∧
    (∀ name, pgGetGauge (pgSetMetrics s ms).2 name = pgGetGauge s name) := by
  unfold pgSetMetrics at h ⊢
  cases hres : ms.foldlM txApply s with
  | ok s' => rw [hres] at h; exact absurd h (by simp)
  | error e' => exact ⟨rfl, fun _ => rfl, fun _ => rfl⟩

/-- Witness for C4: a batch whose first entry is a valid counter increment
and whose second entry has an unknown type fails as a whole, and the counter
touched by the first entry still reads its pre-batch value 5. -/
theorem c4_pg_batch_atomic_witness :
    (pgSetMetrics ⟨[("a", 5)], []⟩
        [⟨"a", "counter", some 1, none⟩, ⟨"b", "bogus", none, none⟩]).1 =
      some (.unknownMetricType "bogus") ∧
    pgGetCounter (pgSetMetrics ⟨[("a", 5)], []⟩
        [⟨"a", "counter", some 1, none⟩, ⟨"b", "bogus", none, none⟩]).2 "a" =
      .ok 5 := by
  have h : (pgSetMetrics ⟨[("a", 5)], []⟩
      [⟨"a", "counter", some 1, none⟩, ⟨"b", "bogus", none, none⟩]).1 =
      some (.unknownMetricType "bogus") := by decide
  have hmain := c4_pg_batch_atomic ⟨[("a", 5)], []⟩
    [⟨"a", "counter", some 1, none⟩, ⟨"b", "bogus", none, none⟩]
    (.unknownMetricType "bogus") h
  exact ⟨h, by rw [hmain.2.1 "a"]; rfl⟩

/-! ## `MemStorage.GetAllMetrics` aliasing (inmemory.go)

`GetAllMetrics` executes `return s.data`: it hands the caller the store's
own map *reference*, not a copy.  To express reference sharing in a pure
embedding, the map lives in a heap addressed by `Nat`; the store holds an
address, `GetAllMetrics` returns that same address, and setters mutate the
heap cell in place.
-/

/-- Heap of Go maps: address → current contents. -/
def Heap := Nat → MMap

/-- A `MemStorage` value: a reference to its `data` map. -/
structure MemStorageRef where
  dataAddr : Nat

/-- In-place update of a heap cell. -/
def heapWrite (h : Heap) (a : Nat) (m : MMap) : Heap :=
  fun a' => if a' = a then m else h a'

/-- Dereference a map. -/
def readMap (h : Heap) (a : Nat) : MMap := h a

/-- Embedding of `MemStorage.GetAllMetrics`: `return s.data` — the store's own map
reference. -/
def getAllMetricsRef (st : MemStorageRef) : Nat := st.dataAddr

/-- Embedding of `MemStorage.SetCounter` acting on the heap: mutates the store's map
cell in place. -/
def setCounterH (h : Heap) (st : MemStorageRef) (name : String) (value : Int) :
    Option StorageErr × Heap :=
  match setCounter (h st.dataAddr) name value with
  | (e, m') => (e, heapWrite h st.dataAddr m')

/-- Claim C5, behaviour at the failing input: Starting from an empty store,
take `r := GetAllMetrics()` and then run `SetCounter("x", 1)`.  The map that
`GetAllMetrics` returned now contains the new entry: the mutation performed
after `GetAllMetrics` returned **is** visible through the returned map,
because `GetAllMetrics` returns the live internal map rather than a
point-in-time copy. -/
theorem c5_getAll_aliases_live_map :
    getAllMetricsRef ⟨0⟩ = (⟨0⟩ : MemStorageRef).dataAddr ∧
    mapGet (readMap (setCounterH (fun _ => []) ⟨0⟩ "x" 1).2 (getAllMetricsRef ⟨0⟩)) "x"
      = some ⟨.counter, .counterV 1⟩ ∧
    mapGet (readMap (fun _ => []) (getAllMetricsRef ⟨0⟩)) "x" = none := by
  refine ⟨rfl, ?_, rfl⟩
  rfl

/-! ## IEEE-754 float64 rounding model

`encoding/json` decodes every JSON number into a Go `float64` via
`strconv.ParseFloat`, which rounds the exact decimal value to the nearest
double (ties to even).  `roundF64` models that rounding on exact rational
inputs.  A finite double is a rational `m · 2^(e−52)` with `|m| < 2^53`;
`ratLog2` computes the binary exponent of a positive rational.
-/

/-- Number of binary digits of `n` (0 for 0), fuel-driven so that the kernel
can evaluate it. -/
def bitLenAux : Nat → Nat → Nat
  | 0, _ => 0
  | fuel + 1, n => if n = 0 then 0 else bitLenAux fuel (n / 2) + 1

def bitLen (n : Nat) : Nat := bitLenAux n n

theorem bitLenAux_ge (fuel n : Nat) (hn : 1 ≤ n) (hf : n ≤ fuel) :
    2 ^ (bitLenAux fuel n - 1) ≤ n := by
  induction fuel generalizing n with
  | zero => omega
  | succ fuel ih =>
      rw [bitLenAux]
      rw [if_neg (by omega)]
      rcases Nat.lt_or_ge n 2 with h2 | h2
      · have hn1 : n = 1 := by omega
        subst hn1
        simp [bitLenAux]
        cases fuel <;> simp [bitLenAux]
      · have hhalf1 : 1 ≤ n / 2 := by omega
        have hhalff : n / 2 ≤ fuel := by omega
        have := ih (n / 2) hhalf1 hhalff
        have hpos : 1 ≤ bitLenAux fuel (n / 2) := by
          cases fuel with
          | zero => omega
          | succ fuel' =>
              rw [bitLenAux, if_neg (by omega)]
              omega
        have h2b : 2 ^ (bitLenAux fuel (n / 2) + 1 - 1)
            = 2 * 2 ^ (bitLenAux fuel (n / 2) - 1) := by
          rw [Nat.add_sub_cancel]
          rw [← pow_succ']
          congr 1
          omega
        rw [h2b]
        omega

theorem bitLen_ge (n : Nat) (hn : 1 ≤ n) : 2 ^ (bitLen n - 1) ≤ n :=
  bitLenAux_ge n n hn le_rfl

/-- Round a rational to the nearest integer, ties to even. -/
def roundHalfEvenRat (q : ℚ) : Int :=
  if q - ⌊q⌋ < 1 / 2 then ⌊q⌋
  else if 1 / 2 < q - ⌊q⌋ then ⌊q⌋ + 1
  else if ⌊q⌋ % 2 = 0 then ⌊q⌋ else ⌊q⌋ + 1

theorem roundHalfEvenRat_intCast (n : Int) : roundHalfEvenRat (n : ℚ) = n := by
  unfold roundHalfEvenRat
  simp

/-- Binary exponent of a positive rational: the unique `e` with
`2^e ≤ a < 2^(e+1)`. -/
def ratLog2 (a : ℚ) : Int :=
  if 1 ≤ a then ((bitLen (⌊a⌋).toNat - 1 : Nat) : Int)
  else
    let k := bitLen ((⌊1 / a⌋).toNat) - 1
    if 1 ≤ a * 2 ^ k then -(k : Int) else -((k : Int) + 1)

/-- Round an exact rational to the nearest IEEE-754 double (round to
nearest, ties to even; subnormals flush precision at exponent −1022).
The result is returned as the exact rational value of that double. -/
def roundF64 (q : ℚ) : ℚ :=
  if q = 0 then 0
  else
    (if q < 0 then -1 else 1) *
      (roundHalfEvenRat (|q| / 2 ^ (max (ratLog2 |q|) (-1022) - 52)) : ℚ) *
        2 ^ (max (ratLog2 |q|) (-1022) - 52)

/-- Go `int64(f)` for a `float64`: truncation toward zero (valid whenever
the result fits in an int64; outside that range Go's behaviour is
implementation-defined and not modelled). -/
def truncQ (q : ℚ) : Int := if 0 ≤ q then ⌊q⌋ else ⌈q⌉

theorem truncQ_intCast (n : Int) : truncQ (n : ℚ) = n := by
  unfold truncQ
  by_cases h : (0 : ℚ) ≤ (n : ℚ)
  · rw [if_pos h, Int.floor_intCast]
  · rw [if_neg h, Int.ceil_intCast]

/-- If the scaled mantissa is exactly an integer, rounding is exact. -/
theorem roundF64_exact (q : ℚ) (hq : q ≠ 0) (he : -1022 ≤ ratLog2 |q|)
    (k : Int) (hk : |q| = (k : ℚ) * 2 ^ (ratLog2 |q| - 52)) :
    roundF64 q = q := by
  unfold roundF64
  rw [if_neg hq, max_eq_left he]
  have h2 : ((2 : ℚ) ^ (ratLog2 |q| - 52)) ≠ 0 := zpow_ne_zero _ (by norm_num)
  have hdiv : |q| / 2 ^ (ratLog2 |q| - 52) = (k : ℚ) := by
    rw [div_eq_iff h2]
    exact hk
  rw [hdiv, roundHalfEvenRat_intCast]
  by_cases hneg : q < 0
  · rw [if_pos hneg]
    have : (k : ℚ) * 2 ^ (ratLog2 |q| - 52) = -q := by rw [← hk, abs_of_neg hneg]
    rw [mul_assoc, this]
    ring
  · rw [if_neg hneg]
    have habs : |q| = q := abs_of_nonneg (le_of_not_lt hneg)
    have : (k : ℚ) * 2 ^ (ratLog2 |q| - 52) = q := by rw [← hk, habs]
    rw [mul_assoc, this, one_mul]

theorem ratLog2_natCast (n : ℕ) (h : 1 ≤ n) :
    ratLog2 (n : ℚ) = ((bitLen n - 1 : ℕ) : ℤ) := by
  unfold ratLog2
  rw [if_pos (by exact_mod_cast h)]
  norm_num

/-- Integers of magnitude at most `2^53` are exactly representable as
doubles: decoding such a counter value loses nothing. -/
theorem roundF64_intCast (v : Int) (hv : v.natAbs ≤ 2 ^ 53) :
    roundF64 (v : ℚ) = (v : ℚ) := by
  by_cases hz : v = 0
  · subst hz
    simp [roundF64]
  obtain ⟨n, hn⟩ : ∃ n : ℕ, v.natAbs = n := ⟨_, rfl⟩
  have hn1 : 1 ≤ n := by
    rw [← hn]
    exact Nat.one_le_iff_ne_zero.mpr (fun h => hz (Int.natAbs_eq_zero.mp h))
  have hvn : n ≤ 2 ^ 53 := hn ▸ hv
  have habs : |(v : ℚ)| = (n : ℚ) := by
    rw [← Int.cast_abs, Int.abs_eq_natAbs, hn]
    norm_cast
  have hE : ratLog2 |(v : ℚ)| = ((bitLen n - 1 : ℕ) : ℤ) := by
    rw [habs, ratLog2_natCast _ hn1]
  have hge : 2 ^ (bitLen n - 1) ≤ n := bitLen_ge n hn1
  have hEle : bitLen n - 1 ≤ 53 := by
    by_contra hgt
    push_neg at hgt
    have h54 : 2 ^ 54 ≤ 2 ^ (bitLen n - 1) :=
      Nat.pow_le_pow_right (by norm_num) (by omega)
    have : (2 : ℕ) ^ 54 ≤ 2 ^ 53 := le_trans (le_trans h54 hge) hvn
    norm_num at this
  have hq0 : (v : ℚ) ≠ 0 := Int.cast_ne_zero.mpr hz
  set E : ℕ := bitLen n - 1 with hEdef
  rcases Nat.lt_or_ge E 53 with hE52 | hE53
  · -- E ≤ 52: n · 2^(52−E) is the integer mantissa
    refine roundF64_exact _ hq0 (by rw [hE]; omega)
      ((n : ℤ) * 2 ^ (52 - E)) ?_
    rw [hE, habs]
    push_cast
    rw [mul_assoc, ← zpow_natCast (2 : ℚ) (52 - E),
      ← zpow_add₀ (by norm_num : (2 : ℚ) ≠ 0)]
    have harith : ((52 - E : ℕ) : ℤ) + ((E : ℤ) - 52) = 0 := by omega
    rw [harith, zpow_zero, mul_one]
  · -- E = 53 forces n = 2^53
    have hEeq : E = 53 := by omega
    have hneq : n = 2 ^ 53 := by
      rw [hEeq] at hge
      omega
    refine roundF64_exact _ hq0 (by rw [hE]; omega) (2 ^ 52) ?_
    rw [hE, habs, hneq, hEeq]
    push_cast
    norm_num [zpow_one]

/-- The value `2^53 + 1` is the first integer that is not a double: `ParseFloat`
rounds it (ties to even) down to `2^53`. -/
theorem roundF64_2p53_succ :
    roundF64 ((9007199254740993 : ℤ) : ℚ) = ((9007199254740992 : ℤ) : ℚ) := by
  have hq0 : ((9007199254740993 : ℤ) : ℚ) ≠ 0 := by norm_num
  have habs : |((9007199254740993 : ℤ) : ℚ)| = ((9007199254740993 : ℕ) : ℚ) := by
    norm_num
  have hbit : bitLen 9007199254740993 = 54 := by decide
  have hE : ratLog2 |((9007199254740993 : ℤ) : ℚ)| = 53 := by
    rw [habs, ratLog2_natCast _ (by norm_num), hbit]
    norm_num
  unfold roundF64
  rw [if_neg hq0, hE]
  rw [show max (53 : ℤ) (-1022) - 52 = 1 from by norm_num]
  rw [if_neg (by norm_num : ¬((9007199254740993 : ℤ) : ℚ) < 0)]
  rw [habs]
  have hm : roundHalfEvenRat (((9007199254740993 : ℕ) : ℚ) / 2 ^ (1 : ℤ))
      = 4503599627370496 := by
    have hx : ((9007199254740993 : ℕ) : ℚ) / 2 ^ (1 : ℤ)
        = (9007199254740993 : ℚ) / 2 := by
      rw [zpow_one]
      norm_num
    rw [hx]
    have hfl : ⌊(9007199254740993 / 2 : ℚ)⌋ = 4503599627370496 := by
      rw [Int.floor_eq_iff]
      constructor <;> norm_num
    unfold roundHalfEvenRat
    rw [hfl]
    have hr : (9007199254740993 / 2 : ℚ) - ((4503599627370496 : ℤ) : ℚ) = 1 / 2 := by
      push_cast
      norm_num
    rw [hr]
    rw [if_neg (by norm_num), if_neg (by norm_num), if_pos (by decide)]
  rw [hm, zpow_one]
  push_cast
  norm_num

/-! ## Snapshot save / restore (`internal/datamanager/datamanager.go`,
`MemStorage.LoadData`)

`Save` JSON-encodes the map returned by `GetAllMetrics`; a counter is
written as its exact int64 decimal literal, a gauge as Go's shortest
round-tripping decimal.  `Load` JSON-decodes the file into
`map[string]storage.Metric` whose `Value` field is `any`, so **every** JSON
number becomes a `float64` (`ParseFloat` rounding), and `LoadData` then
rebuilds the store, converting a counter via `int64(v)` truncation.
-/

def metricTypeStr : MetricType → String
  | .counter => "counter"
  | .gauge => "gauge"

/-- The JSON number written to the snapshot file: an exact int64 literal
for a counter, a float64 (shortest round-tripping decimal) for a gauge. -/
inductive JsonNum where
  | int (v : Int)
  | float (q : ℚ)
deriving DecidableEq, Repr

/-- Snapshot file entry `{"type": ..., "value": ...}`. -/
structure SnapEntry where
  type : String
  value : JsonNum
deriving DecidableEq, Repr

/-- Embedding of `writeDataToFile` via `json.Encoder`: one entry per map binding. -/
def encodeSnapshot (s : MMap) : List (String × SnapEntry) :=
  s.map (fun p => (p.1, ⟨metricTypeStr p.2.type,
    match p.2.value with
    | .counterV v => .int v
    | .gaugeV g => .float g⟩))

/-- Embedding of `encoding/json` decoding of a number into `any`: always a `float64`.
An integer literal is rounded to the nearest double; a gauge's shortest
decimal parses back to exactly the same double. -/
def jsonNumDecode : JsonNum → ℚ
  | .int v => roundF64 (v : ℚ)
  | .float g => g

/-- An entry of the decoded `map[string]storage.Metric`: the type string
from the file and the `float64` the number decoded to. -/
structure DecodedMetric where
  type : String
  value : ℚ
deriving DecidableEq, Repr

/-- Embedding of `readDataFromFile` + `json.Decoder`. -/
def decodeSnapshot (l : List (String × SnapEntry)) : List (String × DecodedMetric) :=
  l.map (fun p => (p.1, ⟨p.2.type, jsonNumDecode p.2.value⟩))

/-- Embedding of `MemStorage.LoadData`: rebuild the store; a counter value is converted
by `CounterValue(int64(v))` (float64 truncation), a gauge by `GaugeValue(v)`;
an unknown type string aborts with an error, keeping the entries loaded so
far. -/
def loadData : MMap → List (String × DecodedMetric) → Option StorageErr × MMap
  | s, [] => (none, s)
  | s, (k, dm) :: rest =>
      if dm.type = "counter" then
        loadData (mapSet s k ⟨.counter, .counterV (truncQ dm.value)⟩) rest
      else if dm.type = "gauge" then
        loadData (mapSet s k ⟨.gauge, .gaugeV dm.value⟩) rest
      else (some (.unknownMetricType dm.type), s)

/-- Embedding of `DataManager.Save` followed by `DataManager.Load` into an empty
in-memory store. -/
def roundTrip (s : MMap) : Option StorageErr × MMap :=
  loadData [] (decodeSnapshot (encodeSnapshot s))

/-- A store entry as the in-memory backend actually creates it: the type
tag matches the value variant.  For the amended C3 the counter magnitude is
further bounded by `2^53`. -/
def entryWf (m : Metric) : Prop :=
  match m.value with
  | .counterV v => m.type = .counter ∧ v.natAbs ≤ 2 ^ 53
  | .gaugeV _ => m.type = .gauge

def storeWf (s : MMap) : Prop :=
  (s.map Prod.fst).Nodup ∧ ∀ p ∈ s, entryWf p.2

theorem mapGet_append (l₁ l₂ : MMap) (k : String) :
    mapGet (l₁ ++ l₂) k =
      match mapGet l₁ k with
      | some v => some v
      | none => mapGet l₂ k := by
  induction l₁ with
  | nil => simp [mapGet]
  | cons hd tl ih =>
      obtain ⟨k', m⟩ := hd
      by_cases hk : k' = k
      · simp [mapGet, hk]
      · simp [mapGet, hk, ih]

theorem mapSet_eq_append (acc : MMap) (k : String) (m : Metric)
    (h : mapGet acc k = none) : mapSet acc k m = acc ++ [(k, m)] := by
  induction acc with
  | nil => simp [mapSet]
  | cons hd tl ih =>
      obtain ⟨k', m'⟩ := hd
      rw [mapGet] at h
      by_cases hk : k' = k
      · rw [if_pos hk] at h
        exact absurd h (by simp)
      · rw [if_neg hk] at h
        simp [mapSet, hk, ih h]

theorem loadData_decode_encode (s : MMap) :
    (∀ p ∈ s, entryWf p.2) →
    ∀ acc : MMap, loadData acc (decodeSnapshot (encodeSnapshot s)) =
      (none, s.foldl (fun a p => mapSet a p.1 p.2) acc) := by
  induction s with
  | nil => intro _ acc; rfl
  | cons hd tl ih =>
      intro hwf acc
      obtain ⟨k, m⟩ := hd
      obtain ⟨t, mv⟩ := m
      have htl : ∀ p ∈ tl, entryWf p.2 :=
        fun p hp => hwf p (List.mem_cons_of_mem _ hp)
      cases mv with
      | counterV v =>
          have hm : t = .counter ∧ v.natAbs ≤ 2 ^ 53 :=
            hwf (k, ⟨t, .counterV v⟩) (List.mem_cons_self ..)
          obtain ⟨ht, hsmall⟩ := hm
          subst ht
          have hdec : truncQ (jsonNumDecode (.int v)) = v := by
            rw [jsonNumDecode, roundF64_intCast v hsmall, truncQ_intCast]
          change loadData
              (mapSet acc k ⟨.counter, .counterV (truncQ (jsonNumDecode (.int v)))⟩)
              (decodeSnapshot (encodeSnapshot tl)) = _
          rw [hdec, ih htl (mapSet acc k ⟨.counter, .counterV v⟩)]
          rfl
      | gaugeV g =>
          have hm : t = .gauge :=
            hwf (k, ⟨t, .gaugeV g⟩) (List.mem_cons_self ..)
          subst hm
          change loadData
              (mapSet acc k ⟨.gauge, .gaugeV (jsonNumDecode (.float g))⟩)
              (decodeSnapshot (encodeSnapshot tl)) = _
          rw [show jsonNumDecode (.float g) = g from rfl,
            ih htl (mapSet acc k ⟨.gauge, .gaugeV g⟩)]
          rfl

theorem foldl_mapSet_fresh (s : MMap) :
    ∀ acc : MMap, (∀ p ∈ s, mapGet acc p.1 = none) →
      (s.map Prod.fst).Nodup →
      s.foldl (fun a p => mapSet a p.1 p.2) acc = acc ++ s := by
  induction s with
  | nil => intro acc _ _; simp
  | cons hd tl ih =>
      intro acc hfresh hnodup
      obtain ⟨k, m⟩ := hd
      have hk : mapGet acc k = none := hfresh (k, m) (by simp)
      have hset : mapSet acc k m = acc ++ [(k, m)] := mapSet_eq_append acc k m hk
      have hnodup' : (tl.map Prod.fst).Nodup := by
        simp only [List.map_cons, List.nodup_cons] at hnodup
        exact hnodup.2
      have hknot : k ∉ tl.map Prod.fst := by
        simp only [List.map_cons, List.nodup_cons] at hnodup
        exact hnodup.1
      have hfresh' : ∀ p ∈ tl, mapGet (acc ++ [(k, m)]) p.1 = none := by
        intro p hp
        rw [mapGet_append]
        rw [hfresh p (by simp [hp])]
        have hne : k ≠ p.1 := by
          intro hkp
          exact hknot (hkp ▸ List.mem_map_of_mem Prod.fst hp)
        simp [mapGet, hne]
      rw [List.foldl_cons, hset, ih (acc ++ [(k, m)]) hfresh' hnodup']
      simp

/-- Claim C3 counterexample: A store holding the counter value `2^53 + 1`
does not survive the snapshot round trip: the JSON decode goes through
`float64` and the restored store holds `2^53`.  So the claim's "for all
int64 values, not only those representable in a float64" part is false. -/
theorem c3_roundTrip_big_counter :
    roundTrip [("c", ⟨.counter, .counterV 9007199254740993⟩)] =
      (none, [("c", ⟨.counter, .counterV 9007199254740992⟩)]) ∧
    (9007199254740992 : Int) ≠ 9007199254740993 := by
  constructor
  · rw [roundTrip, encodeSnapshot]
    simp only [List.map_cons, List.map_nil]
    rw [decodeSnapshot]
    simp only [List.map_cons, List.map_nil]
    rw [loadData]
    simp only [metricTypeStr, if_pos rfl, jsonNumDecode]
    rw [show ((9007199254740993 : ℤ) : ℚ) = ((9007199254740993 : ℤ) : ℚ) from rfl,
      roundF64_2p53_succ, truncQ_intCast]
    rfl
  · decide

/-- Claim C3, amended: For every well-formed in-memory store whose counter
values have magnitude at most `2^53` (exactly the int64 values a float64
represents exactly), the snapshot-then-restore round trip reproduces the
store exactly: every id, kind and value — gauges always, counters under the
`2^53` bound forced by the float64 decode. -/
theorem c3_roundTrip_amended (s : MMap) (hwf : storeWf s) :
    roundTrip s = (none, s) := by
  obtain ⟨hnodup, hentry⟩ := hwf
  rw [roundTrip, loadData_decode_encode s hentry []]
  rw [foldl_mapSet_fresh s [] (fun p _ => rfl) hnodup]
  rfl

/-- Witness for the amended C3: a two-entry store (a counter and a gauge)
restores to itself. -/
theorem c3_roundTrip_amended_witness :
    storeWf [("c", ⟨.counter, .counterV 5⟩), ("g", ⟨.gauge, .gaugeV (7 / 2)⟩)] ∧
    roundTrip [("c", ⟨.counter, .counterV 5⟩), ("g", ⟨.gauge, .gaugeV (7 / 2)⟩)] =
      (none, [("c", ⟨.counter, .counterV 5⟩), ("g", ⟨.gauge, .gaugeV (7 / 2)⟩)]) := by
  have hwf : storeWf [("c", ⟨.counter, .counterV 5⟩), ("g", ⟨.gauge, .gaugeV (7 / 2)⟩)] := by
    refine ⟨by decide, ?_⟩
    intro p hp
    simp only [List.mem_cons, List.not_mem_nil, or_false] at hp
    rcases hp with rfl | rfl
    · exact ⟨rfl, by decide⟩
    · exact rfl
  exact ⟨hwf, c3_roundTrip_amended _ hwf⟩

/-! ## Response compression decision (`Middlewares.Compress`,
`isCompressContentType`)

The middleware wraps the response writer in a gzip writer when
`strings.Contains(acceptEncoding, "gzip") && isCompressContentType(contentType)`
holds, where `contentType` is the **request's** `Content-Type` header and
`isCompressContentType` tests `strings.Contains(contentType, v)` for each
`v` in `["application/json", "text/html", ""]`.
-/

/-- Tests whether `pat` is a prefix of the second list. -/
def listPrefixEq : List Char → List Char → Bool
  | [], _ => true
  | _ :: _, [] => false
  | a :: as, b :: bs => a = b && listPrefixEq as bs

/-- Tests whether `pat` occurs as a contiguous sublist. -/
def containsSub (pat : List Char) : List Char → Bool
  | [] => pat.isEmpty
  | c :: rest => listPrefixEq pat (c :: rest) || containsSub pat rest

/-- Go `strings.Contains(s, sub)`. -/
def goContains (s sub : String) : Bool := containsSub sub.data s.data

theorem containsSub_nil_pat (l : List Char) : containsSub [] l = true := by
  cases l <;> simp [containsSub, listPrefixEq, List.isEmpty]

/-- Embedding of `isCompressContentType` from the compress middleware: the allow-list
loop, including the empty string entry. -/
def isCompressContentType (contentType : String) : Bool :=
  ["application/json", "text/html", ""].any (fun v => goContains contentType v)

/-- The middleware's decision to wrap the response writer in a gzip
writer. -/
def compressDecision (acceptEncoding contentType : String) : Bool :=
  goContains acceptEncoding "gzip" && isCompressContentType contentType

/-- The test `strings.Contains(s, "")` is always true, so the allow-list check
passes for **every** content type. -/
theorem isCompressContentType_always_true (contentType : String) :
    isCompressContentType contentType = true := by
  unfold isCompressContentType
  simp only [List.any_cons, List.any_nil, Bool.or_false]
  have h : goContains contentType "" = true := containsSub_nil_pat contentType.data
  rw [h]
  simp

/-- Claim C9 counterexample: A request with `Accept-Encoding: gzip` and
`Content-Type: text/plain` — a content type outside the allow-list — still
gets a compressed response: the allow-list check is vacuous. -/
theorem c9_compress_other_content_type :
    compressDecision "gzip" "text/plain" = true ∧
    ("text/plain" ∈ (["application/json", "text/html", ""] : List String)) = False := by
  constructor
  · decide
  · simp

/-- Claim C9, amended: The response is gzip-wrapped exactly when the
request's `Accept-Encoding` header contains `"gzip"`: the content-type
allow-list check always passes, because it tests substring containment and
the list contains the empty string. -/
theorem c9_compress_iff_accept_gzip (acceptEncoding contentType : String) :
    compressDecision acceptEncoding contentType = goContains acceptEncoding "gzip" := by
  unfold compressDecision
  rw [isCompressContentType_always_true]
  simp

/-! ## Hex codec, signature header and the sign/compress pipeline

`signature.CalculateHashSum` is HMAC-SHA256: a keyed hash producing 32
bytes.  The pipeline theorems are stated for an arbitrary keyed hash `H`
(with the 32-byte output contract where needed): the properties under
claim are about *which bytes* are hashed and compared, not about SHA-256
internals.  Gzip and RSA-OAEP are likewise abstracted as codecs with their
round-trip contracts.
-/

/-- Byte strings. -/
abbrev Bytes := List Nat

/-- Lower-case hex digit, as `encoding/hex` emits. -/
def hexDigit (n : Nat) : Char :=
  if n < 10 then Char.ofNat (48 + n) else Char.ofNat (97 + (n - 10))

/-- Embedding of `hex.EncodeToString`. -/
def hexEncode (b : Bytes) : String :=
  ⟨b.foldr (fun x acc => hexDigit (x / 16) :: hexDigit (x % 16) :: acc) []⟩

/-- Value of one hex digit, upper or lower case. -/
def hexDigitVal (c : Char) : Option Nat :=
  if 48 ≤ c.toNat ∧ c.toNat ≤ 57 then some (c.toNat - 48)
  else if 97 ≤ c.toNat ∧ c.toNat ≤ 102 then some (c.toNat - 97 + 10)
  else if 65 ≤ c.toNat ∧ c.toNat ≤ 70 then some (c.toNat - 65 + 10)
  else none

def hexDecodeList : List Char → Option Bytes
  | [] => some []
  | [_] => none
  | c1 :: c2 :: rest =>
      match hexDigitVal c1, hexDigitVal c2, hexDecodeList rest with
      | some h, some l, some bs => some ((h * 16 + l) :: bs)
      | _, _, _ => none

/-- Embedding of `hex.DecodeString`: fails on odd length or a non-hex character; decodes
the empty string to the empty byte slice. -/
def hexDecode (s : String) : Option Bytes := hexDecodeList s.data

theorem hexDigitVal_hexDigit : ∀ n : Nat, n < 16 → hexDigitVal (hexDigit n) = some n := by
  decide

theorem hexDecode_hexEncode (b : Bytes) (hb : ∀ x ∈ b, x < 256) :
    hexDecode (hexEncode b) = some b := by
  unfold hexDecode hexEncode
  induction b with
  | nil => rfl
  | cons x bs ih =>
      have hx : x < 256 := hb x (List.mem_cons_self ..)
      have hbs : ∀ y ∈ bs, y < 256 := fun y hy => hb y (List.mem_cons_of_mem _ hy)
      simp only [List.foldr_cons]
      rw [hexDecodeList]
      rw [hexDigitVal_hexDigit (x / 16) (by omega), hexDigitVal_hexDigit (x % 16) (by omega)]
      rw [ih hbs]
      show some ((x / 16 * 16 + x % 16) :: bs) = some (x :: bs)
      have : x / 16 * 16 + x % 16 = x := by omega
      rw [this]

/-- Outcome of a middleware step: it either wrote its own response or
passed the request on to the wrapped handler. -/
inductive MwOutcome where
  | respond (status : Nat)
  | handler
deriving DecidableEq, Repr

/-- Embedding of `Middlewares.HashSumValidator` (with sign key configured): read the
body, compute `CalculateHashSum(signKey, body)`, hex-decode the
`HashSHA256` header (absent = empty string), reject with 400 unless the
decoded bytes equal the computed digest.  A malformed hex header is a 500
from the decode step. -/
def hashSumValidator (H : Bytes → Bytes → Bytes) (signKey body : Bytes)
    (headerHashSum : String) : MwOutcome :=
  match hexDecode headerHashSum with
  | none => .respond 500
  | some signHeader =>
      if H signKey body = signHeader then .handler else .respond 400

/-- Claim C7: With a non-empty sign key configured, a `POST /updates` request
whose `HashSHA256` header is absent, or whose hex-decoded header differs
from the keyed digest of the body, is rejected with 400 and the handler is
never invoked.  (`H` is the keyed hash; its 32-byte output length is the
HMAC-SHA256 contract.) -/
theorem c7_hash_validator_rejects (H : Bytes → Bytes → Bytes)
    (signKey body : Bytes) (hkey : signKey ≠ [])
    (hlen : (H signKey body).length = 32) :
    (hashSumValidator H signKey body "" = .respond 400 ∧
      hashSumValidator H signKey body "" ≠ .handler) ∧
    (∀ (hdr : String) (sh : Bytes), hexDecode hdr = some sh →
      sh ≠ H signKey body →
      hashSumValidator H signKey body hdr = .respond 400 ∧
      hashSumValidator H signKey body hdr ≠ .handler) := by
  constructor
  · have hne : H signKey body ≠ [] := by
      intro hcon
      rw [hcon] at hlen
      simp at hlen
    have hres : hashSumValidator H signKey body "" = .respond 400 := by
      show (if H signKey body = ([] : Bytes) then MwOutcome.handler
          else .respond 400) = .respond 400
      rw [if_neg hne]
    exact ⟨hres, by rw [hres]; simp⟩
  · intro hdr sh hdec hne
    have hres : hashSumValidator H signKey body hdr = .respond 400 := by
      unfold hashSumValidator
      rw [hdec]
      show (if H signKey body = sh then MwOutcome.handler
          else .respond 400) = .respond 400
      rw [if_neg (fun hcon => hne hcon.symm)]
    exact ⟨hres, by rw [hres]; simp⟩

/-- Witness for C7: key `[107]`, body `[1, 2, 3]`, a constant 32-byte
digest; the absent header and the wrong header `"00"` are both rejected. -/
theorem c7_hash_validator_rejects_witness :
    (hashSumValidator (fun _ _ => List.replicate 32 0) [107] [1, 2, 3] ""
        = .respond 400) ∧
    (hexDecode "00" = some [0]) ∧
    (hashSumValidator (fun _ _ => List.replicate 32 0) [107] [1, 2, 3] "00"
        = .respond 400) := by
  have hmain := c7_hash_validator_rejects (fun _ _ => List.replicate 32 0)
    [107] [1, 2, 3] (by simp) (by simp)
  refine ⟨hmain.1.1, rfl, ?_⟩
  exact (hmain.2 "00" [0] rfl (by decide)).1

/-- The request the agent sends for a batch: the body after gzip and
optional RSA encryption, and the hex-encoded digest header.
`MetricReporter.sendRequest` computes the digest over `payload` — the
marshalled JSON bytes — *before* `sendByHTTP` compresses and encrypts. -/
structure AgentRequest where
  body : Bytes
  hashHeader : String
deriving DecidableEq, Repr

/-- Embedding of `sendRequest` + `sendByHTTP` on the agent. -/
def agentSend (H : Bytes → Bytes → Bytes) (gz enc : Bytes → Bytes)
    (useEnc : Bool) (key payload : Bytes) : AgentRequest :=
  { body := if useEnc then enc (gz payload) else gz payload,
    hashHeader := hexEncode (H key payload) }

/-- The server's `/updates` middleware chain: `Cryptography` (decrypt when
a private key is configured) → `Compress` (the request body is replaced by
a gzip-decompressing reader) → `HashSumValidator` over the resulting
plaintext bytes. -/
def serverVerify (H : Bytes → Bytes → Bytes) (gunz dec : Bytes → Bytes)
    (useEnc : Bool) (key : Bytes) (req : AgentRequest) : MwOutcome :=
  hashSumValidator H key (gunz (if useEnc then dec req.body else req.body))
    req.hashHeader

/-- Claim C6: The agent signs the marshalled JSON bytes before compression
(and before encryption); the server verifies the digest over the bytes it
obtains after decryption and decompression — the same plaintext JSON — so
every agent-signed batch verifies on a server configured with the same
key.  `gz`/`gunz` and `enc`/`dec` are the gzip and RSA-OAEP codecs with
their round-trip contracts; `H` is the keyed hash with byte-valued
output. -/
theorem c6_sign_before_compress (H : Bytes → Bytes → Bytes)
    (gz gunz enc dec : Bytes → Bytes) (useEnc : Bool) (key payload : Bytes)
    (hgz : ∀ x, gunz (gz x) = x) (henc : ∀ x, dec (enc x) = x)
    (hbytes : ∀ x ∈ H key payload, x < 256) :
    (agentSend H gz enc useEnc key payload).hashHeader
      = hexEncode (H key payload) ∧
    gunz (if useEnc then dec (agentSend H gz enc useEnc key payload).body
          else (agentSend H gz enc useEnc key payload).body) = payload ∧
    serverVerify H gunz dec useEnc key (agentSend H gz enc useEnc key payload)
      = .handler := by
  have hplain : gunz (if useEnc then dec (agentSend H gz enc useEnc key payload).body
      else (agentSend H gz enc useEnc key payload).body) = payload := by
    unfold agentSend
    cases useEnc with
    | false => simp [hgz]
    | true => simp [henc, hgz]
  refine ⟨rfl, hplain, ?_⟩
  unfold serverVerify
  rw [hplain]
  unfold hashSumValidator
  rw [show (agentSend H gz enc useEnc key payload).hashHeader
      = hexEncode (H key payload) from rfl]
  rw [hexDecode_hexEncode _ hbytes]
  show (if H key payload = H key payload then MwOutcome.handler
      else .respond 400) = .handler
  rw [if_pos rfl]

/-- Witness for C6: identity codecs (which satisfy the round-trip
contracts), the concatenating keyed hash, key `[1]`, payload `[2, 3]`,
with encryption enabled. -/
theorem c6_sign_before_compress_witness :
    (agentSend (fun k p => k ++ p) id id true [1] [2, 3]).hashHeader
      = hexEncode [1, 2, 3] ∧
    serverVerify (fun k p => k ++ p) id id true [1]
      (agentSend (fun k p => k ++ p) id id true [1] [2, 3]) = .handler := by
  have hmain := c6_sign_before_compress (fun k p => k ++ p) id id id id true [1] [2, 3]
    (fun x => rfl) (fun x => rfl) (by decide)
  exact ⟨hmain.1, hmain.2.2⟩

/-! ## Trusted-subnet admission (`Middlewares.Whitelist`, `getRemoteIPAddr`)

`getRemoteIPAddr` tries `net.ParseIP(X-Real-IP)`, then the first
comma-separated entry of `X-Forwarded-For`, then the host part of the
socket peer address; only a failing `SplitHostPort` is an error (500).  A
peer host that fails to parse yields a nil IP, which no subnet contains
(403).  IPs are modelled as IPv4 dotted quads (the flows under claim);
`net.ParseIP` rejects empty strings, wrong field counts, out-of-range
octets and leading zeros. -/

/-- An IPv4 address. -/
structure IPv4 where
  a : Nat
  b : Nat
  c : Nat
  d : Nat
deriving DecidableEq, Repr

/-- Split a character list on a separator (Go `strings.Split` semantics:
the empty input yields one empty field). -/
def splitOnChar (sep : Char) : List Char → List (List Char)
  | [] => [[]]
  | c :: rest =>
      match splitOnChar sep rest with
      | [] => [[]]
      | f :: fs => if c = sep then [] :: f :: fs else (c :: f) :: fs

/-- Go `strings.Split(s, sep)` for a one-character separator. -/
def goSplit (sep : Char) (s : String) : List String :=
  (splitOnChar sep s.data).map (fun cs => ⟨cs⟩)

/-- One dotted-quad field: 1–3 decimal digits, value ≤ 255, no leading
zero (except `"0"` itself), as `net.ParseIP` accepts. -/
def parseOctet (cs : List Char) : Option Nat :=
  if cs = [] then none
  else if ¬(cs.all Char.isDigit) then none
  else if cs.length > 3 then none
  else if cs.length > 1 ∧ cs.headD '0' = '0' then none
  else
    let v := cs.foldl (fun acc c => acc * 10 + (c.toNat - 48)) 0
    if v ≤ 255 then some v else none

/-- Embedding of `net.ParseIP` restricted to IPv4 dotted-quad form. -/
def parseIP (s : String) : Option IPv4 :=
  match splitOnChar '.' s.data with
  | [f1, f2, f3, f4] =>
      match parseOctet f1, parseOctet f2, parseOctet f3, parseOctet f4 with
      | some a, some b, some c, some d => some ⟨a, b, c, d⟩
      | _, _, _, _ => none
  | _ => none

/-- A parsed CIDR: base address and prefix length. -/
structure IPNet where
  base : IPv4
  maskBits : Nat
deriving DecidableEq, Repr

def ipToNat (ip : IPv4) : Nat :=
  ip.a * 2 ^ 24 + ip.b * 2 ^ 16 + ip.c * 2 ^ 8 + ip.d

/-- Embedding of `net.IPNet.Contains`: both addresses masked to the prefix agree
(masking the top `maskBits` bits = dividing by `2^(32−maskBits)`). -/
def ipnetContains (net : IPNet) (ip : IPv4) : Bool :=
  ipToNat ip / 2 ^ (32 - net.maskBits) = ipToNat net.base / 2 ^ (32 - net.maskBits)

/-- The request data the admission middleware looks at. -/
structure RemoteRequest where
  xRealIP : String
  xForwardedFor : String
  remoteAddr : String
deriving DecidableEq, Repr

inductive ResolveErr where
  | splitHostPort (s : String)
deriving DecidableEq, Repr

/-- Embedding of `net.SplitHostPort` restricted to the `host:port` form: the host is
everything before the last colon; no colon is an error. -/
def splitHostPort (s : String) : Option String :=
  if s.data.contains ':' then
    some ⟨(s.data.reverse.dropWhile (· ≠ ':')).drop 1 |>.reverse⟩
  else none

/-- Embedding of `getRemoteIPAddr`: `X-Real-IP`, else the first comma-separated
`X-Forwarded-For` entry, else the socket peer host.  `.ok none` is Go's
nil IP (peer host failed to parse); `.error` is the `SplitHostPort`
failure. -/
def getRemoteIPAddr (r : RemoteRequest) : Except ResolveErr (Option IPv4) :=
  match parseIP r.xRealIP with
  | some ip => .ok (some ip)
  | none =>
      match parseIP ((goSplit ',' r.xForwardedFor).headD "") with
      | some ip => .ok (some ip)
      | none =>
          match splitHostPort r.remoteAddr with
          | none => .error (.splitHostPort r.remoteAddr)
          | some host => .ok (parseIP host)

/-- Embedding of `Middlewares.Whitelist`: no subnet configured admits everything; a
resolution error is a 500; a resolved IP outside the subnet (or a nil IP)
is a 403; otherwise the handler runs. -/
def whitelist (subnet : Option IPNet) (r : RemoteRequest) : MwOutcome :=
  match subnet with
  | none => .handler
  | some net =>
      match getRemoteIPAddr r with
      | .error _ => .respond 500
      | .ok ipOpt =>
          if (match ipOpt with
              | some ip => ipnetContains net ip
              | none => false) then .handler
          else .respond 403

/-- Claim C8: Under a configured trusted subnet, every request whose
resolved source IP — `X-Real-IP`, else the first comma-separated
`X-Forwarded-For` entry, else the socket peer host — is not contained in
the CIDR gets a 403 and the handler never runs; and the resolution order
is exactly that. -/
theorem c8_whitelist_403 :
    (∀ (net : IPNet) (r : RemoteRequest) (ip : IPv4),
      getRemoteIPAddr r = .ok (some ip) → ipnetContains net ip = false →
      whitelist (some net) r = .respond 403 ∧
      whitelist (some net) r ≠ .handler) ∧
    (∀ (r : RemoteRequest) (ip : IPv4),
      parseIP r.xRealIP = some ip → getRemoteIPAddr r = .ok (some ip)) ∧
    (∀ (r : RemoteRequest) (ip : IPv4),
      parseIP r.xRealIP = none →
      parseIP ((goSplit ',' r.xForwardedFor).headD "") = some ip →
      getRemoteIPAddr r = .ok (some ip)) ∧
    (∀ (r : RemoteRequest) (host : String),
      parseIP r.xRealIP = none →
      parseIP ((goSplit ',' r.xForwardedFor).headD "") = none →
      splitHostPort r.remoteAddr = some host →
      getRemoteIPAddr r = .ok (parseIP host)) := by
  refine ⟨?_, ?_, ?_, ?_⟩
  · intro net r ip hres hout
    have h403 : whitelist (some net) r = .respond 403 := by
      unfold whitelist
      rw [hres]
      show (if (ipnetContains net ip) then MwOutcome.handler else .respond 403)
          = .respond 403
      rw [hout]
      rfl
    exact ⟨h403, by rw [h403]; simp⟩
  · intro r ip hreal
    unfold getRemoteIPAddr
    rw [hreal]
  · intro r ip hreal hfwd
    unfold getRemoteIPAddr
    rw [hreal, hfwd]
  · intro r host hreal hfwd hsplit
    unfold getRemoteIPAddr
    rw [hreal, hfwd, hsplit]

/-- Witness for C8 at the spec's S5 inputs: subnet `10.0.0.0/8`,
`X-Real-IP: 192.168.1.1` resolves via the header and is rejected with
403. -/
theorem c8_whitelist_403_witness :
    getRemoteIPAddr ⟨"192.168.1.1", "", "10.1.2.3:50000"⟩
      = .ok (some ⟨192, 168, 1, 1⟩) ∧
    whitelist (some ⟨⟨10, 0, 0, 0⟩, 8⟩) ⟨"192.168.1.1", "", "10.1.2.3:50000"⟩
      = .respond 403 := by
  have hres : getRemoteIPAddr ⟨"192.168.1.1", "", "10.1.2.3:50000"⟩
      = .ok (some ⟨192, 168, 1, 1⟩) :=
    c8_whitelist_403.2.1 ⟨"192.168.1.1", "", "10.1.2.3:50000"⟩ ⟨192, 168, 1, 1⟩
      (by decide)
  refine ⟨hres, ?_⟩
  exact (c8_whitelist_403.1 ⟨⟨10, 0, 0, 0⟩, 8⟩ ⟨"192.168.1.1", "", "10.1.2.3:50000"⟩
    ⟨192, 168, 1, 1⟩ hres (by decide)).1

/-! ## Path-parameter update handler (`Handlers.UpdateMetric`,
`parseGaugeMetricValue`)

The handler parses the `{metricValue}` path segment with
`strconv.ParseFloat(s, 64)` — for **both** kinds — and for a counter
converts the float with `int64(metricValue)` (truncation toward zero)
before calling `SetCounter`. -/

def digitsToNat (l : List Char) : Nat :=
  l.foldl (fun acc c => acc * 10 + (c.toNat - 48)) 0

/-- Consume an optional leading sign. -/
def parseSign : List Char → Bool × List Char
  | '+' :: rest => (false, rest)
  | '-' :: rest => (true, rest)
  | cs => (false, cs)

def takeDigits (cs : List Char) : List Char × List Char :=
  cs.span Char.isDigit

/-- The optional `e`/`E` exponent suffix; anything else trailing is a
syntax error. -/
def parseExpPart : List Char → Option Int
  | [] => some 0
  | c :: rest =>
      if c = 'e' ∨ c = 'E' then
        match parseSign rest with
        | (neg, rest2) =>
            match takeDigits rest2 with
            | (ds, rest3) =>
                if ds = [] ∨ rest3 ≠ [] then none
                else some ((if neg then -1 else 1) * (digitsToNat ds : Int))
      else none

/-- Decimal float syntax accepted by `strconv.ParseFloat`:
`[+|-] digits [. digits] [(e|E) [+|-] digits]`, at least one digit.
Returns the exact value as mantissa `m` and decimal exponent `e`
(value `m · 10^e`). -/
def parseDecParts (cs : List Char) : Option (Int × Int) :=
  let (neg, cs1) := parseSign cs
  let (d1, cs2) := takeDigits cs1
  let (d2, cs3) :=
    match cs2 with
    | '.' :: t => takeDigits t
    | _ => ([], cs2)
  if d1 = [] ∧ d2 = [] then none
  else
    match parseExpPart cs3 with
    | none => none
    | some e =>
        some ((if neg then -1 else 1) * (digitsToNat (d1 ++ d2) : Int),
          e - (d2.length : Int))

/-- Embedding of `strconv.ParseFloat(s, 64)`: parse the exact decimal value, round it
to the nearest double; out-of-range results (±Inf) are an error, which the
handler maps to 400. -/
def goParseFloat (s : String) : Option ℚ :=
  match parseDecParts s.data with
  | none => none
  | some (m, e) =>
      if |roundF64 ((m : ℚ) * 10 ^ e)| < 2 ^ 1024 then
        some (roundF64 ((m : ℚ) * 10 ^ e))
      else none

/-- Embedding of `Handlers.UpdateMetric` for `POST /update/{type}/{name}/{value}`:
empty or unparseable value → 400; counter → `SetCounter(name,
int64(value))`; gauge → `SetGauge(name, value)`; storage error → 500;
other type → 400 (`MetricValidator` also rejects it with 400 first). -/
def updateMetric (s : MMap) (metricType metricName metricValueRaw : String) :
    Nat × MMap :=
  if metricValueRaw = "" then (400, s)
  else
    match goParseFloat metricValueRaw with
    | none => (400, s)
    | some v =>
        if metricType = "counter" then
          match setCounter s metricName (truncQ v) with
          | (none, s') => (200, s')
          | (some _, s') => (500, s')
        else if metricType = "gauge" then
          match setGauge s metricName v with
          | (none, s') => (200, s')
          | (some _, s') => (500, s')
        else (400, s)

theorem roundF64_3_halves : roundF64 (3 / 2 : ℚ) = 3 / 2 := by
  have habs : |(3 / 2 : ℚ)| = 3 / 2 := abs_of_pos (by norm_num)
  have hfl : ⌊(3 / 2 : ℚ)⌋ = 1 := by
    rw [Int.floor_eq_iff]
    constructor <;> norm_num
  have hE : ratLog2 |(3 / 2 : ℚ)| = 0 := by
    rw [habs]
    unfold ratLog2
    rw [if_pos (by norm_num : (1 : ℚ) ≤ 3 / 2), hfl]
    norm_num
    decide
  refine roundF64_exact _ (by norm_num) (by rw [hE]; norm_num) (3 * 2 ^ 51) ?_
  rw [hE, habs]
  rw [show ((0 : ℤ) - 52) = -((52 : ℕ) : ℤ) from by norm_num, zpow_neg, zpow_natCast]
  push_cast
  norm_num

theorem goParseFloat_three_halves : goParseFloat "1.5" = some (3 / 2) := by
  unfold goParseFloat
  rw [show parseDecParts "1.5".data = some (15, -1) from by decide]
  show (if |roundF64 (((15 : ℤ) : ℚ) * 10 ^ (-1 : ℤ))| < 2 ^ 1024 then
      some (roundF64 (((15 : ℤ) : ℚ) * 10 ^ (-1 : ℤ))) else none) = some (3 / 2)
  have hv : ((15 : ℤ) : ℚ) * 10 ^ (-1 : ℤ) = 3 / 2 := by
    rw [show (-1 : ℤ) = -((1 : ℕ) : ℤ) from by norm_num, zpow_neg, zpow_natCast]
    push_cast
    norm_num
  rw [hv, roundF64_3_halves]
  rw [if_pos]
  rw [show |(3 / 2 : ℚ)| = 3 / 2 from abs_of_pos (by norm_num)]
  norm_num

theorem goParseFloat_big_int : goParseFloat "9007199254740993"
    = some ((9007199254740992 : ℤ) : ℚ) := by
  unfold goParseFloat
  rw [show parseDecParts "9007199254740993".data = some (9007199254740993, 0) from by decide]
  show (if |roundF64 (((9007199254740993 : ℤ) : ℚ) * 10 ^ (0 : ℤ))| < 2 ^ 1024 then
      some (roundF64 (((9007199254740993 : ℤ) : ℚ) * 10 ^ (0 : ℤ))) else none)
      = some ((9007199254740992 : ℤ) : ℚ)
  have hv : ((9007199254740993 : ℤ) : ℚ) * 10 ^ (0 : ℤ) = ((9007199254740993 : ℤ) : ℚ) := by
    rw [zpow_zero, mul_one]
  rw [hv, roundF64_2p53_succ]
  rw [if_pos]
  rw [show |(((9007199254740992 : ℤ)) : ℚ)| = ((9007199254740992 : ℤ) : ℚ) from
    abs_of_pos (by norm_num)]
  norm_num

theorem truncQ_three_halves : truncQ (3 / 2) = 1 := by
  unfold truncQ
  rw [if_pos (by norm_num : (0 : ℚ) ≤ 3 / 2)]
  rw [Int.floor_eq_iff]
  constructor <;> norm_num

/-- Claim C10: The `{metricValue}` path segment is parsed as a float64 and,
for a counter, truncated toward zero to an int64 before the write: any
fractional value that parses gets status 200 and adds `trunc(v)` —
`"1.5"` parses to `3/2` and adds `1` — and an integer literal above `2^53`
such as `"9007199254740993"` is rounded by the float64 conversion to
`9007199254740992` before being added. -/
theorem c10_counter_value_truncated :
    (∀ (s : MMap) (name raw : String) (v : ℚ),
      raw ≠ "" → goParseFloat raw = some v → mapGet s name = none →
      updateMetric s "counter" name raw
        = (200, mapSet s name ⟨.counter, .counterV (truncQ v)⟩)) ∧
    (∀ (s : MMap) (name raw : String) (v : ℚ) (t : MetricType) (old : Int),
      raw ≠ "" → goParseFloat raw = some v →
      mapGet s name = some ⟨t, .counterV old⟩ →
      updateMetric s "counter" name raw
        = (200, mapSet s name ⟨.counter, .counterV (int64Add old (truncQ v))⟩)) ∧
    goParseFloat "1.5" = some (3 / 2) ∧
    truncQ (3 / 2) = 1 ∧
    goParseFloat "9007199254740993" = some ((9007199254740992 : ℤ) : ℚ) ∧
    truncQ ((9007199254740992 : ℤ) : ℚ) = 9007199254740992 ∧
    (9007199254740992 : Int) ≠ 9007199254740993 := by
  refine ⟨?_, ?_, goParseFloat_three_halves, truncQ_three_halves,
    goParseFloat_big_int, truncQ_intCast _, by decide⟩
  · intro s name raw v hraw hparse habsent
    unfold updateMetric
    rw [if_neg hraw, hparse]
    show (if "counter" = "counter" then _ else _) = _
    rw [if_pos rfl]
    rw [show setCounter s name (truncQ v)
        = (none, mapSet s name ⟨.counter, .counterV (truncQ v)⟩) from by
      simp [setCounter, habsent]]
  · intro s name raw v t old hraw hparse hget
    unfold updateMetric
    rw [if_neg hraw, hparse]
    show (if "counter" = "counter" then _ else _) = _
    rw [if_pos rfl]
    rw [show setCounter s name (truncQ v)
        = (none, mapSet s name ⟨.counter, .counterV (int64Add old (truncQ v))⟩) from by
      simp [setCounter, hget]]

/-- Witness for C10: posting `/update/counter/hits/1.5` on an empty store
succeeds with 200 and stores counter value 1. -/
theorem c10_counter_value_truncated_witness :
    updateMetric [] "counter" "hits" "1.5"
      = (200, [("hits", ⟨.counter, .counterV 1⟩)]) := by
  have h := c10_counter_value_truncated.1 [] "hits" "1.5" (3 / 2)
    (by decide) c10_counter_value_truncated.2.2.1 rfl
  rw [h, c10_counter_value_truncated.2.2.2.1]
  rfl

end MetricsCollector
